import Mathlib

/-!
# go-cqhttp `modules/config/config.go`

A shallow embedding of the configuration bootstrap of go-cqhttp:

* `expand`          : the regexp driven environment expansion (`config.go`, l. 220-234);
* `generateConfig`  : the assembly of the default configuration (l. 184-218);
* `Parse`           : the loader, with its first-run hand-off (l. 95-175).

A Go `string` is modelled by the list of its runes (`List Char`).  The
regexp of `expand` mentions ASCII runes only, so matching on runes and
matching on UTF-8 bytes agree.
-/

namespace Config

/-- A Go string, as the sequence of its runes. -/
abbrev Str := List Char

/-! ## `expand` -/

/-- Character class `[a-zA-Z]`. -/
def isLetter (c : Char) : Bool :=
  (decide ('a' ≤ c) && decide (c ≤ 'z')) || (decide ('A' ≤ c) && decide (c ≤ 'Z'))

/-- Character class `[0-9]`. -/
def isDigit (c : Char) : Bool :=
  decide ('0' ≤ c) && decide (c ≤ '9')

/-- Character class `[a-zA-Z_]`, the first class of the regexp of `expand`. -/
def isNameStart (c : Char) : Bool :=
  isLetter c || c == '_'

/-- Character class `[a-zA-Z0-9_:/.]`, the second class of the regexp of `expand`. -/
def isNameRest (c : Char) : Bool :=
  isLetter c || isDigit c || c == '_' || c == ':' || c == '/' || c == '.'

/-- The regexp `\${([a-zA-Z_]+[a-zA-Z0-9_:/.]*)}` tried at the start of the
input: the matched text and the text after it.  Both repetitions are greedy;
since `}` is in neither class and the first class is included in the second,
giving characters back can never produce another match, so the greedy run
decides. -/
def matchHere : Str → Option (Str × Str)
  | c :: d :: t =>
    if c = '$' ∧ d = '{' then
      let h := t.takeWhile isNameStart
      let t1 := t.dropWhile isNameStart
      let b := t1.takeWhile isNameRest
      let t2 := t1.dropWhile isNameRest
      if h = [] then none
      else
        match t2 with
        | e :: rest => if e = '}' then some (c :: d :: (h ++ b ++ [e]), rest) else none
        | [] => none
    else none
  | _ => none

/-- The loop of `regexp.ReplaceAllStringFunc`: matches are searched from left
to right and do not overlap; unmatched text is copied; the replacement is not
scanned again.  The first argument counts the runes of the current match that
are still to be skipped. -/
def replaceAllFrom (repl : Str → Str) : Nat → Str → Str
  | _, [] => []
  | skip + 1, _ :: cs => replaceAllFrom repl skip cs
  | 0, c :: cs =>
    match matchHere (c :: cs) with
    | some (m, _) => repl m ++ replaceAllFrom repl (m.length - 1) cs
    | none => c :: replaceAllFrom repl 0 cs

/-- Go `regexp.ReplaceAllStringFunc` for the regexp of `expand`. -/
def replaceAllStringFunc (s : Str) (repl : Str → Str) : Str :=
  replaceAllFrom repl 0 s

/-- Removal of the trailing runes of the cut set (`strings.TrimRight`). -/
def trimRight (s : Str) (cutset : Str) : Str :=
  (s.reverse.dropWhile (fun c => decide (c ∈ cutset))).reverse

/-- Removal of the leading runes of the cut set (`strings.TrimLeft`). -/
def trimLeft (s : Str) (cutset : Str) : Str :=
  s.dropWhile (fun c => decide (c ∈ cutset))

/-- Go `strings.Trim`: all leading and trailing runes of the cut set removed. -/
def trim (s : Str) (cutset : Str) : Str :=
  trimRight (trimLeft s cutset) cutset

/-- Go `strings.Index` for a separator of one rune. -/
def index (s : Str) (sep : Char) : Option Nat :=
  match s with
  | [] => none
  | c :: cs => if c = sep then some 0 else (index cs sep).map (· + 1)

/-- Go `strings.Cut` for a separator of one rune: the text before the first
separator, the text after it, and whether the separator was found. -/
def cut (s : Str) (sep : Char) : Str × Str × Bool :=
  match index s sep with
  | some i => (s.take i, s.drop (i + 1), true)
  | none => (s, [], false)

/-- The replacement closure of `expand` (l. 225-233). -/
def expandOne (mapping : Str → Str) (s : Str) : Str :=
  let s := trim s ['$', '{', '}']
  match cut s ':' with
  | (before, after, ok) =>
    let m := mapping before
    if ok && m.isEmpty then after else m

/-- Go `expand` (l. 223-234). -/
def expand (s : Str) (mapping : Str → Str) : Str :=
  replaceAllStringFunc s (expandOne mapping)

/-! ### Vocabulary of the claims about `expand` -/

/-- The text `${` c `}`. -/
def placeholder (c : Str) : Str :=
  '$' :: '{' :: (c ++ ['}'])

/-- Texts matching `[a-zA-Z_][a-zA-Z0-9_:/.]*`. -/
def wellFormed : Str → Bool
  | [] => false
  | a :: r => isNameStart a && r.all isNameRest

/-- Character class `[a-zA-Z0-9_/.]`: the second class without the colon. -/
def isPlainRest (c : Char) : Bool :=
  isLetter c || isDigit c || c == '_' || c == '/' || c == '.'

/-- Names: a letter or underscore followed by letters, digits, underscores,
slashes or dots. -/
def isName : Str → Bool
  | [] => false
  | a :: r => isNameStart a && r.all isPlainRest

/-- An environment given by a finite table; an absent key yields the empty string. -/
def envOf (tbl : List (Str × Str)) (k : Str) : Str :=
  match tbl.find? (fun p => p.1 == k) with
  | some p => p.2
  | none => []

/-- The text that replaces a placeholder with content `c`, in the words of the
specification: the name is `c` up to its first colon; the fallback (the text
after that colon) is used when there is a colon and the name maps to the empty
string; the value of the name is used otherwise. -/
def resolve (m : Str → Str) (c : Str) : Str :=
  let name := c.takeWhile (fun x => x != ':')
  if ':' ∈ c ∧ m name = [] then (c.dropWhile (fun x => x != ':')).drop 1 else m name

/-- The text `t0 f(c1) t1 ... f(cn) tn`, for the pairs `(ci, ti)`. -/
def assemble (f : Str → Str) (t0 : Str) : List (Str × Str) → Str
  | [] => t0
  | (c, t) :: ps => t0 ++ f c ++ assemble f t ps

/-- No substring of the text is a well-formed placeholder. -/
def NoPlaceholder (s : Str) : Prop :=
  ∀ pre c post, s = pre ++ placeholder c ++ post → wellFormed c = false

/-- Whether the regexp of `expand` matches somewhere in the text. -/
def hasMatch : Str → Bool
  | [] => false
  | c :: cs => (matchHere (c :: cs)).isSome || hasMatch cs

/-! ## `generateConfig` -/

/-- Go `Server` (l. 90-93): the label of a transport and its default
configuration fragment.  The registry holds pointers to such values; they are
taken to be non-nil. -/
structure Server where
  /-- Short description shown in the menu. -/
  Brief : Str
  /-- Fragment appended to the configuration when the transport is selected. -/
  Default : Str
deriving DecidableEq

/-- Go `AddServer` (l. 180-182): the registry is extended at its end. -/
def AddServer (serverconfs : List Server) (s : Server) : List Server :=
  serverconfs ++ [s]

/-- Two's complement wrap-around of a Go `int32` (the type of a `rune`). -/
def wrapInt32 (x : Int) : Int :=
  (x + 2147483648) % 4294967296 - 2147483648

/-- The bound of the selection loop (l. 202-205): `len(serverconfs)`, capped at 10. -/
def rmaxOf (serverconfs : List Server) : Int :=
  if (serverconfs.length : Int) > 10 then 10 else (serverconfs.length : Int)

/-- State of the selection loop: the string builder and the indices at which
`serverconfs` has been read so far. -/
structure LoopState where
  /-- Contents of the `strings.Builder`. -/
  sb : Str
  /-- Indices `r` of the index expressions `serverconfs[r]` evaluated so far. -/
  accessed : List Int
deriving DecidableEq

/-- Go index expression `serverconfs[r]`: a run-time panic outside `0 ≤ r < len`. -/
def indexServer (serverconfs : List Server) (r : Int) : Except String Server :=
  if 0 ≤ r then
    match serverconfs.get? r.toNat with
    | some s => .ok s
    | none => .error "index out of range"
  else .error "index out of range"

/-- One iteration of the selection loop (l. 208-213) on the rune `c`. -/
def selectStep (serverconfs : List Server) (st : LoopState) (c : Char) :
    Except String LoopState :=
  let r : Int := wrapInt32 ((c.toNat : Int) - 48)
  if r ≥ 0 ∧ r < wrapInt32 (rmaxOf serverconfs) then
    match indexServer serverconfs r with
    | .ok s => .ok { sb := st.sb ++ s.Default, accessed := st.accessed ++ [r] }
    | .error e => .error e
  else .ok st

/-- The iterations of the selection loop over the runes of the selection string. -/
def selectLoop (serverconfs : List Server) : LoopState → Str → Except String LoopState
  | st, [] => .ok st
  | st, c :: cs =>
    match selectStep serverconfs st c with
    | .ok st1 => selectLoop serverconfs st1 cs
    | .error e => .error e

/-- The selection loop of `generateConfig` (l. 187-213) as a function of the
template, the registry and the selection string. -/
def selection (template : Str) (serverconfs : List Server) (readString : Str) :
    Except String LoopState :=
  selectLoop serverconfs { sb := template, accessed := [] } readString

/-- The ordinal selected by the rune `c`, in the words of the specification:
`c - '0'` when it lies in `[0, min(10, registry length))`. -/
def validOrdinal (serverconfs : List Server) (c : Char) : Option Int :=
  let k : Int := (c.toNat : Int) - 48
  if 0 ≤ k ∧ k < min 10 (serverconfs.length : Int) then some k else none

/-- The contribution of the rune `c` of the selection string to the output, in
the words of the specification: the `Default` fragment of the transport at the
ordinal selected by `c`, and nothing for any other rune. -/
def fragmentFor (serverconfs : List Server) (c : Char) : Str :=
  match validOrdinal serverconfs c with
  | some k => ((serverconfs.get? k.toNat).map Server.Default).getD []
  | none => []

/-- The fragments of the runes of a selection string, in order. -/
def fragments (serverconfs : List Server) (sel : Str) : Str :=
  (sel.map (fragmentFor serverconfs)).flatten

/-- The menu text of `generateConfig` (l. 191-196).  It is assembled and then
never printed nor written. -/
def hint (serverconfs : List Server) : Str :=
  (serverconfs.enum.foldl
    (fun acc p => acc ++ "\n> ".toList ++ (Nat.repr p.1).toList ++ ": ".toList ++ p.2.Brief)
    "请选择你需要的通信方式:".toList) ++ "\n已选择默认配置: 3".toList

/-- Effects of the program that the outside can observe. -/
inductive Event where
  /-- Text on standard output (`fmt.Println`, `fmt.Printf`). -/
  | print (msg : String)
  /-- Log entry (`log.Println`, `log.Printf`). -/
  | log (msg : String)
  /-- Fatal log entry (`log.Fatal`, `log.Fatalf`), after which logrus exits with code 1. -/
  | fatal (msg : String)
  /-- File written by `os.WriteFile`: name, data, permission bits. -/
  | writeFile (name : String) (data : Str) (perm : Nat)
  /-- Call of `os.Stat`. -/
  | stat (name : String)
  /-- Command started and awaited by `(*exec.Cmd).Run`. -/
  | run (argv : List String)
deriving DecidableEq

/-- The fixed selection of `generateConfig` (l. 199): the rune `3` and a newline. -/
def readString : Str := ['3', '\n']

/-- Go `generateConfig` (l. 185-218): the events it produces, or the panic of
an index expression.  The result of `os.WriteFile` is discarded by the code. -/
def generateConfig (defaultConfig : Str) (serverconfs : List Server) :
    Except String (List Event) :=
  match selection defaultConfig serverconfs readString with
  | .ok st =>
    .ok [ .print "未找到配置文件，正在为您生成配置文件中！\n",
          .writeFile "config.yml" st.sb 0o644,
          .print "默认配置文件已生成，请修改 config.yml 后重新启动!\n" ]
  | .error e => .error e

/-! ## `Parse` and the launchers -/

/-- How a run of `Parse` ends. -/
inductive Outcome (Cfg : Type) where
  /-- The function returns the decoded settings to its caller. -/
  | returned (config : Cfg)
  /-- The process terminates with the exit code. -/
  | exited (code : Nat)
  /-- The process is aborted by a run-time panic. -/
  | panicked (msg : String)
deriving DecidableEq

/-- The surroundings of `Parse`: file system, environment, YAML decoder,
platform, process launcher, and the package variables. -/
structure World (Cfg : Type) where
  /-- Result of `os.ReadFile`. -/
  readFile : String → Except String Str
  /-- The lookup `os.Getenv`; an unset name yields the empty string. -/
  getenv : Str → Str
  /-- The YAML decoder filling a fresh `Config`. -/
  decode : Str → Except String Cfg
  /-- The value of `runtime.GOOS`. -/
  goos : String
  /-- Whether `os.Stat` fails with an error for which `os.IsNotExist` holds. -/
  notExist : String → Bool
  /-- Result of `(*exec.Cmd).Run` for the command line: `none` is success. -/
  run : List String → Option String
  /-- The embedded `default_config.yml`. -/
  defaultConfig : Str
  /-- The registry filled by `AddServer`. -/
  serverconfs : List Server

/-- Go `runWindowsExecutable` (l. 138-159): the events and the returned error. -/
def runWindowsExecutable {Cfg : Type} (w : World Cfg) (executable : String) :
    List Event × Option String :=
  if w.notExist executable then
    ([.stat executable], some ("文件 " ++ executable ++ " 不存在"))
  else
    let cmd := ["cmd.exe", "/C", executable]
    match w.run cmd with
    | some err =>
      ([.stat executable, .print ("正在执行命令: " ++ executable ++ "\n"), .run cmd],
        some ("执行 " ++ executable ++ " 时发生错误: " ++ err))
    | none =>
      ([.stat executable, .print ("正在执行命令: " ++ executable ++ "\n"), .run cmd,
        .log "go-cqhttp.exe 执行成功！"], none)

/-- Go `runLinuxExecutable` (l. 162-175): the events and the returned error. -/
def runLinuxExecutable {Cfg : Type} (w : World Cfg) (executable : String) :
    List Event × Option String :=
  let cmd := [executable]
  match w.run cmd with
  | some err => ([.run cmd], some err)
  | none => ([.run cmd, .log "go-cqhttp 执行成功！"], none)

/-- Go `Parse` (l. 96-135): the events in order, and how the call ends. -/
def Parse {Cfg : Type} (w : World Cfg) (path : String) : List Event × Outcome Cfg :=
  match w.readFile path with
  | .ok file =>
    match w.decode (expand file w.getenv) with
    | .ok config => ([], .returned config)
    | .error err => ([.fatal ("配置文件不合法!" ++ err)], .exited 1)
  | .error _ =>
    match generateConfig w.defaultConfig w.serverconfs with
    | .error e => ([.print "未找到配置文件，正在为您生成配置文件中！\n"], .panicked e)
    | .ok gen =>
      if w.goos = "windows" then
        match runWindowsExecutable w "go-cqhttp.exe" with
        | (evs, some err) =>
          (gen ++ [.log "当前操作系统为 Windows"] ++ evs ++
            [.fatal ("执行 go-cqhttp.exe 时发生错误: " ++ err)], .exited 1)
        | (evs, none) => (gen ++ [.log "当前操作系统为 Windows"] ++ evs, .exited 0)
      else if w.goos = "linux" then
        match runLinuxExecutable w "./go-cqhttp" with
        | (evs, some err) =>
          (gen ++ [.log "当前操作系统为 Linux"] ++ evs ++
            [.fatal ("执行 go-cqhttp 时发生错误: " ++ err)], .exited 1)
        | (evs, none) => (gen ++ [.log "当前操作系统为 Linux"] ++ evs, .exited 0)
      else
        (gen ++ [.log ("不支持的操作系统: " ++ w.goos ++ "\n")], .exited 0)

/-- Whether the event starts a process. -/
def Event.isRun : Event → Bool
  | .run _ => true
  | _ => false

/-- A world for examples: no configuration file, nothing set in the
environment, three registered transports. -/
def sampleWorld (goos : String) (run : List String → Option String) : World Unit where
  readFile := fun _ => .error "open config.yml: no such file or directory"
  getenv := fun _ => []
  decode := fun _ => .ok ()
  goos := goos
  notExist := fun _ => false
  run := run
  defaultConfig := "# base\n".toList
  serverconfs := [⟨"http".toList, "- http\n".toList⟩, ⟨"ws".toList, "- ws\n".toList⟩,
    ⟨"ws-reverse".toList, "- ws-reverse\n".toList⟩]

/-! ## Lemmas on the character classes -/

theorem isNameStart_rest {c : Char} (h : isNameStart c = true) : isNameRest c = true := by
  unfold isNameStart at h
  unfold isNameRest
  rcases Bool.or_eq_true _ _ |>.mp h with h1 | h1 <;> simp [h1]

theorem isPlainRest_rest {c : Char} (h : isPlainRest c = true) : isNameRest c = true := by
  unfold isPlainRest at h
  unfold isNameRest
  simp only [Bool.or_eq_true] at h ⊢
  tauto

theorem isPlainRest_ne_colon {c : Char} (h : isPlainRest c = true) : c ≠ ':' := by
  rintro rfl
  revert h
  decide

theorem isNameRest_ne_dollar {c : Char} (h : isNameRest c = true) : c ≠ '$' := by
  rintro rfl
  revert h
  decide

theorem isNameRest_ne_open {c : Char} (h : isNameRest c = true) : c ≠ '{' := by
  rintro rfl
  revert h
  decide

theorem isNameRest_ne_close {c : Char} (h : isNameRest c = true) : c ≠ '}' := by
  rintro rfl
  revert h
  decide

theorem isName_wellFormed {c : Str} (h : isName c = true) : wellFormed c = true := by
  cases c with
  | nil => simp [isName] at h
  | cons a r =>
    simp only [isName, Bool.and_eq_true, List.all_eq_true] at h
    simp only [wellFormed, Bool.and_eq_true, List.all_eq_true]
    exact ⟨h.1, fun x hx => isPlainRest_rest (h.2 x hx)⟩

theorem wellFormed_all {c : Str} (h : wellFormed c = true) : ∀ x ∈ c, isNameRest x = true := by
  cases c with
  | nil => simp [wellFormed] at h
  | cons a r =>
    simp only [wellFormed, Bool.and_eq_true, List.all_eq_true] at h
    intro x hx
    rcases List.mem_cons.mp hx with rfl | hx
    · exact isNameStart_rest h.1
    · exact h.2 x hx

/-- The group `[a-zA-Z_]+[a-zA-Z0-9_:/.]*` of the regexp and the grammar
`[a-zA-Z_][a-zA-Z0-9_:/.]*` describe the same texts. -/
theorem wellFormed_iff (c : Str) :
    wellFormed c = true ↔
      ∃ h b, c = h ++ b ∧ h ≠ [] ∧ (∀ x ∈ h, isNameStart x = true)
        ∧ ∀ x ∈ b, isNameRest x = true := by
  constructor
  · intro hc
    cases c with
    | nil => simp [wellFormed] at hc
    | cons a r =>
      simp only [wellFormed, Bool.and_eq_true, List.all_eq_true] at hc
      exact ⟨[a], r, rfl, by simp, by simpa using hc.1, hc.2⟩
  · rintro ⟨h, b, rfl, hne, hh, hb⟩
    cases h with
    | nil => exact absurd rfl hne
    | cons x hs =>
      simp only [List.cons_append, wellFormed, Bool.and_eq_true, List.all_eq_true]
      refine ⟨hh x (List.mem_cons_self _ _), fun y hy => ?_⟩
      rcases List.mem_append.mp hy with h1 | h1
      · exact isNameStart_rest (hh y (List.mem_cons_of_mem _ h1))
      · exact hb y h1

/-! ## Lemmas on the matcher -/

/-- The two greedy runs of the regexp together take the longest prefix in the
second class. -/
theorem takeWhile_start_rest (l : Str) :
    l.takeWhile isNameStart ++ (l.dropWhile isNameStart).takeWhile isNameRest
      = l.takeWhile isNameRest
    ∧ (l.dropWhile isNameStart).dropWhile isNameRest = l.dropWhile isNameRest := by
  induction l with
  | nil => simp
  | cons x xs ih =>
    by_cases hx : isNameStart x = true
    · have hr := isNameStart_rest hx
      simp [List.takeWhile_cons, List.dropWhile_cons, hx, hr, ih.1, ih.2]
    · simp [List.takeWhile_cons, List.dropWhile_cons, hx]

theorem takeWhile_rest_append (r : Str) (e : Char) (rest : Str)
    (hr : ∀ x ∈ r, isNameRest x = true) (he : isNameRest e = false) :
    (r ++ e :: rest).takeWhile isNameRest = r
    ∧ (r ++ e :: rest).dropWhile isNameRest = e :: rest := by
  induction r with
  | nil => simp [List.takeWhile_cons, List.dropWhile_cons, he]
  | cons x xs ih =>
    have hx : isNameRest x = true := hr x (List.mem_cons_self _ _)
    have ih := ih (fun y hy => hr y (List.mem_cons_of_mem _ hy))
    simp [List.takeWhile_cons, List.dropWhile_cons, hx, ih.1, ih.2]

/-- The matcher in closed form. -/
theorem matchHere_cons_cons (c d : Char) (t : Str) :
    matchHere (c :: d :: t) =
      if c = '$' ∧ d = '{' then
        if t.takeWhile isNameStart = [] then none
        else
          match t.dropWhile isNameRest with
          | e :: rest =>
            if e = '}' then some (c :: d :: (t.takeWhile isNameRest ++ [e]), rest) else none
          | [] => none
      else none := by
  simp only [matchHere]
  rw [(takeWhile_start_rest t).1, (takeWhile_start_rest t).2]

/-- A well-formed placeholder at the start of the text is matched, and
exactly it. -/
theorem matchHere_placeholder (c rest : Str) (hc : wellFormed c = true) :
    matchHere (placeholder c ++ rest) = some (placeholder c, rest) := by
  cases c with
  | nil => simp [wellFormed] at hc
  | cons a r =>
    have hall := wellFormed_all hc
    simp only [wellFormed, Bool.and_eq_true] at hc
    have h1 := takeWhile_rest_append (a :: r) '}' rest hall (by decide)
    have : placeholder (a :: r) ++ rest = '$' :: '{' :: ((a :: r) ++ '}' :: rest) := by
      simp [placeholder]
    rw [this, matchHere_cons_cons, h1.1, h1.2]
    simp [List.takeWhile_cons, hc.1, placeholder]

/-- Whatever the matcher returns is a well-formed placeholder at the start of
the text. -/
theorem matchHere_some {s m rest : Str} (h : matchHere s = some (m, rest)) :
    ∃ c, wellFormed c = true ∧ m = placeholder c ∧ s = m ++ rest := by
  match s, h with
  | c :: d :: t, h =>
    rw [matchHere_cons_cons] at h
    split_ifs at h with h1 h2
    rcases h1 with ⟨rfl, rfl⟩
    have hsplit := List.takeWhile_append_dropWhile isNameRest t
    cases hd : t.dropWhile isNameRest with
    | nil => rw [hd] at h; simp at h
    | cons e rest1 =>
      rw [hd] at h
      simp only at h
      split_ifs at h with h3
      subst h3
      simp only [Option.some.injEq, Prod.mk.injEq] at h
      obtain ⟨rfl, rfl⟩ := h
      refine ⟨t.takeWhile isNameRest, ?_, ?_, ?_⟩
      · cases t with
        | nil => simp at h2
        | cons x xs =>
          by_cases hx : isNameStart x = true
          · have hr := isNameStart_rest hx
            simp [List.takeWhile_cons, hr, wellFormed, hx]
          · simp [List.takeWhile_cons, hx] at h2
      · simp [placeholder]
      · rw [hd] at hsplit
        simp [hsplit]

theorem matchHere_ne_dollar {c : Char} (cs : Str) (h : c ≠ '$') :
    matchHere (c :: cs) = none := by
  cases cs with
  | nil => simp [matchHere]
  | cons d t => simp [matchHere, h]

/-! ## Lemmas on the replacement loop -/

theorem replaceAllFrom_skip (repl : Str → Str) (xs s : Str) :
    replaceAllFrom repl xs.length (xs ++ s) = replaceAllFrom repl 0 s := by
  induction xs with
  | nil => simp
  | cons x xs ih => simpa [replaceAllFrom] using ih

theorem replaceAllFrom_none (repl : Str → Str) (c : Char) (cs : Str)
    (h : matchHere (c :: cs) = none) :
    replaceAllFrom repl 0 (c :: cs) = c :: replaceAllFrom repl 0 cs := by
  simp [replaceAllFrom, h]

theorem replaceAllFrom_some (repl : Str → Str) (c : Char) (cs m rest : Str)
    (h : matchHere (c :: cs) = some (m, rest)) :
    replaceAllFrom repl 0 (c :: cs) = repl m ++ replaceAllFrom repl (m.length - 1) cs := by
  simp [replaceAllFrom, h]

/-- Text without `$` is copied. -/
theorem replaceAllFrom_literal (repl : Str → Str) (t s : Str) (ht : '$' ∉ t) :
    replaceAllFrom repl 0 (t ++ s) = t ++ replaceAllFrom repl 0 s := by
  induction t with
  | nil => simp
  | cons x xs ih =>
    have hx : x ≠ '$' := fun h => ht (h ▸ List.mem_cons_self _ _)
    have hxs : '$' ∉ xs := fun h => ht (List.mem_cons_of_mem _ h)
    rw [List.cons_append, replaceAllFrom_none repl x _ (matchHere_ne_dollar _ hx), ih hxs]
    rfl

/-- A well-formed placeholder is replaced and the scan goes on behind it. -/
theorem replaceAllFrom_placeholder (repl : Str → Str) (c s : Str)
    (hc : wellFormed c = true) :
    replaceAllFrom repl 0 (placeholder c ++ s)
      = repl (placeholder c) ++ replaceAllFrom repl 0 s := by
  have hm := matchHere_placeholder c s hc
  have hshape : placeholder c ++ s = '$' :: (('{' :: (c ++ ['}'])) ++ s) := by
    simp [placeholder]
  rw [hshape] at hm ⊢
  have hlen : (placeholder c).length - 1 = ('{' :: (c ++ ['}'])).length := by
    simp [placeholder]
  rw [replaceAllFrom_some repl _ _ _ _ hm, hlen, replaceAllFrom_skip]

theorem replaceAllFrom_nil (repl : Str → Str) : replaceAllFrom repl 0 [] = [] := rfl

/-- Where the regexp matches nowhere, the text is returned as it is. -/
theorem replaceAllFrom_noMatch (repl : Str → Str) (s : Str)
    (h : ∀ pre suf, s = pre ++ suf → matchHere suf = none) :
    replaceAllFrom repl 0 s = s := by
  induction s with
  | nil => rfl
  | cons x xs ih =>
    rw [replaceAllFrom_none repl x xs (h [] (x :: xs) rfl)]
    rw [ih (fun pre suf hs => h (x :: pre) suf (by simp [hs]))]

theorem noPlaceholder_noMatch {s : Str} (h : NoPlaceholder s) :
    ∀ pre suf, s = pre ++ suf → matchHere suf = none := by
  intro pre suf hs
  cases hm : matchHere suf with
  | none => rfl
  | some r =>
    obtain ⟨m, rest⟩ := r
    obtain ⟨c, hc, rfl, rfl⟩ := matchHere_some hm
    have := h pre c rest (by simp [hs])
    simp [hc] at this

theorem hasMatch_append (pre s : Str) (h : hasMatch s = true) :
    hasMatch (pre ++ s) = true := by
  induction pre with
  | nil => simpa using h
  | cons x xs ih => simp [hasMatch, ih]

theorem noPlaceholder_of_hasMatch {s : Str} (h : hasMatch s = false) : NoPlaceholder s := by
  intro pre c post hs
  by_contra hc
  have hc : wellFormed c = true := by simpa using hc
  have hm := matchHere_placeholder c post hc
  have : hasMatch (placeholder c ++ post) = true := by
    have hshape : placeholder c ++ post = '$' :: (('{' :: (c ++ ['}'])) ++ post) := by
      simp [placeholder]
    rw [hshape] at hm ⊢
    simp only [hasMatch, hm, Option.isSome_some, Bool.true_or]
  have := hasMatch_append pre _ this
  rw [← List.append_assoc, ← hs, h] at this
  exact Bool.false_ne_true this

/-! ## Lemmas on the replacement closure -/

theorem dropWhile_of_all_false (p : Char → Bool) (l : Str) (h : ∀ x ∈ l, p x = false) :
    l.dropWhile p = l := by
  cases l with
  | nil => rfl
  | cons x xs => simp [List.dropWhile_cons, h x (List.mem_cons_self _ _)]

theorem not_mem_cutset {x : Char} (h : isNameRest x = true) :
    decide (x ∈ ['$', '{', '}']) = false := by
  have h1 := isNameRest_ne_dollar h
  have h2 := isNameRest_ne_open h
  have h3 := isNameRest_ne_close h
  simp [h1, h2, h3]

/-- `strings.Trim(s, "${}")` strips a well-formed placeholder to its content. -/
theorem trim_placeholder (c : Str) (hc : wellFormed c = true) :
    trim (placeholder c) ['$', '{', '}'] = c := by
  have hall := wellFormed_all hc
  have hl : trimLeft (placeholder c) ['$', '{', '}'] = c ++ ['}'] := by
    cases c with
    | nil => simp [wellFormed] at hc
    | cons a r =>
      have ha := hall a (List.mem_cons_self _ _)
      have h1 := isNameRest_ne_dollar ha
      have h2 := isNameRest_ne_open ha
      have h3 := isNameRest_ne_close ha
      simp [trimLeft, placeholder, List.dropWhile_cons, h1, h2, h3]
  unfold trim
  rw [hl]
  unfold trimRight
  have hrev : (c ++ ['}']).reverse = '}' :: c.reverse := by simp
  rw [hrev, List.dropWhile_cons]
  have : decide ('}' ∈ ['$', '{', '}']) = true := by decide
  rw [if_pos this]
  rw [dropWhile_of_all_false _ c.reverse
    (fun x hx => not_mem_cutset (hall x (List.mem_reverse.mp hx)))]
  simp

/-- `strings.Cut` in terms of the first separator. -/
theorem cut_eq (s : Str) (sep : Char) :
    cut s sep = (s.takeWhile (fun x => x != sep),
      (s.dropWhile (fun x => x != sep)).drop 1, decide (sep ∈ s)) := by
  induction s with
  | nil => simp [cut, index]
  | cons c cs ih =>
    by_cases hc : c = sep
    · subst hc
      simp [cut, index, List.takeWhile_cons, List.dropWhile_cons]
    · have hc2 : ¬ sep = c := fun h => hc h.symm
      simp only [cut, index, hc, if_false] at ih ⊢
      cases hi : index cs sep with
      | none =>
        rw [hi] at ih
        simp only [Option.map_none', Prod.mk.injEq] at ih ⊢
        obtain ⟨h1, h2, h3⟩ := ih
        have h3 : sep ∉ cs := by simpa using h3.symm
        simp [List.takeWhile_cons, List.dropWhile_cons, hc, hc2, ← h1, ← h2, h3]
      | some i =>
        rw [hi] at ih
        simp only [Option.map_some', Prod.mk.injEq] at ih ⊢
        obtain ⟨h1, h2, h3⟩ := ih
        have h3 : sep ∈ cs := by simpa using h3.symm
        simp [List.takeWhile_cons, List.dropWhile_cons, hc, ← h1, ← h2, h3]

/-- The replacement closure on a well-formed placeholder, in the words of the
specification. -/
theorem expandOne_placeholder (m : Str → Str) (c : Str) (hc : wellFormed c = true) :
    expandOne m (placeholder c) = resolve m c := by
  unfold expandOne resolve
  simp only [trim_placeholder c hc, cut_eq]
  by_cases h1 : ':' ∈ c <;> by_cases h2 : m (c.takeWhile (fun x => x != ':')) = [] <;>
    simp [h1, h2, List.isEmpty_iff]

theorem resolve_plain (m : Str → Str) (c : Str) (hc : ':' ∉ c) : resolve m c = m c := by
  have : c.takeWhile (fun x => x != ':') = c := by
    rw [List.takeWhile_eq_self_iff]
    intro x hx
    have : x ≠ ':' := fun h => hc (h ▸ hx)
    simpa using this
  simp [resolve, hc, this]

theorem resolve_fallback (m : Str → Str) (n d : Str) (hn : ':' ∉ n) :
    resolve m (n ++ ':' :: d) = if m n = [] then d else m n := by
  have hall : ∀ x ∈ n, (x != ':') = true := by
    intro x hx
    have : x ≠ ':' := fun h => hn (h ▸ hx)
    simpa using this
  have h1 : (n ++ ':' :: d).takeWhile (fun x => x != ':') = n := by
    rw [List.takeWhile_append_of_pos hall]
    simp [List.takeWhile_cons]
  have h2 : (n ++ ':' :: d).dropWhile (fun x => x != ':') = ':' :: d := by
    rw [List.dropWhile_append_of_pos hall]
    simp [List.dropWhile_cons]
  simp [resolve, h1, h2]

theorem isName_no_colon {n : Str} (h : isName n = true) : ':' ∉ n := by
  cases n with
  | nil => simp
  | cons a r =>
    simp only [isName, Bool.and_eq_true, List.all_eq_true] at h
    intro hm
    rcases List.mem_cons.mp hm with h1 | h1
    · have := h.1
      rw [← h1] at this
      revert this
      decide
    · exact isPlainRest_ne_colon (h.2 _ h1) rfl

/-- Behind `${`, a text that reaches a rune outside the second class before
any `}` is not matched. -/
theorem dropWhile_stops (p : Char → Bool) (X : Str) (z : Char) (rest : Str)
    (hz : p z = false) :
    ∃ X1, (X ++ z :: rest).dropWhile p = X1 ++ z :: rest ∧ ∀ y ∈ X1, y ∈ X := by
  induction X with
  | nil => exact ⟨[], by simp [List.dropWhile_cons, hz], by simp⟩
  | cons x xs ih =>
    by_cases hx : p x = true
    · obtain ⟨X1, h1, h2⟩ := ih
      exact ⟨X1, by simp [List.dropWhile_cons, hx, h1],
        fun y hy => List.mem_cons_of_mem _ (h2 y hy)⟩
    · exact ⟨x :: xs, by simp [List.dropWhile_cons, hx], fun y hy => hy⟩

theorem matchHere_stop (X : Str) (z : Char) (rest : Str) (hX : '}' ∉ X)
    (hz : isNameRest z = false) (hz1 : z ≠ '}') :
    matchHere ('$' :: '{' :: (X ++ z :: rest)) = none := by
  rw [matchHere_cons_cons]
  obtain ⟨X1, h1, h2⟩ := dropWhile_stops isNameRest X z rest hz
  rw [h1]
  cases X1 with
  | nil => simp [hz1]
  | cons y ys =>
    have hy : y ≠ '}' := fun h => hX (h ▸ h2 y (List.mem_cons_self _ _))
    simp [hy]

/-! ## Theorems on `expand` -/

/-- C1: `expand` replaces every well-formed placeholder and keeps all other
text.  For a text `t0 p1 t1 ... pn tn` whose literal segments contain no `$` and
whose `pi` are `${ci}` with `ci` matching `[a-zA-Z_][a-zA-Z0-9_:/.]*`, the
result is `t0 r1 t1 ... rn tn`, where `ri` is the text after the first colon of
`ci` when `ci` has a colon and the name before it maps to the empty string, and
the value of the name otherwise. -/
theorem expand_assemble (m : Str → Str) (t0 : Str) (ps : List (Str × Str))
    (h0 : '$' ∉ t0) (hps : ∀ p ∈ ps, wellFormed p.1 = true ∧ '$' ∉ p.2) :
    expand (assemble placeholder t0 ps) m = assemble (resolve m) t0 ps := by
  unfold expand replaceAllStringFunc
  induction ps generalizing t0 with
  | nil =>
    have := replaceAllFrom_literal (expandOne m) t0 [] h0
    simpa [assemble, replaceAllFrom_nil] using this
  | cons p ps ih =>
    obtain ⟨c, t⟩ := p
    have hp := hps (c, t) (List.mem_cons_self _ _)
    have ih := ih t hp.2 (fun q hq => hps q (List.mem_cons_of_mem _ hq))
    simp only [assemble, List.append_assoc]
    rw [replaceAllFrom_literal _ _ _ h0, replaceAllFrom_placeholder _ _ _ hp.1, ih,
      expandOne_placeholder m c hp.1]

/-- Scenarios A and B of the specification: `host: ${FOO}` with `FOO=bar`, and
`host: ${FOO:localhost}` with `FOO` unset. -/
theorem expand_assemble_witness :
    ('$' ∉ "host: ".toList
      ∧ expand (assemble placeholder "host: ".toList [("FOO".toList, [])])
          (envOf [("FOO".toList, "bar".toList)]) = "host: bar".toList)
    ∧ expand (assemble placeholder "host: ".toList [("FOO:localhost".toList, [])])
          (envOf []) = "host: localhost".toList :=
  ⟨⟨by decide,
    (expand_assemble (envOf [("FOO".toList, "bar".toList)]) "host: ".toList
      [("FOO".toList, [])] (by decide) (by decide)).trans (by decide)⟩,
   (expand_assemble (envOf []) "host: ".toList
      [("FOO:localhost".toList, [])] (by decide) (by decide)).trans (by decide)⟩

/-- C2, as stated, fails: the fallback `b c` contains no `}`, the name `A` is
unset, and `${A:b c}` is returned unchanged instead of `b c`. -/
theorem expand_fallback_space_counterexample :
    isName "A".toList = true ∧ '}' ∉ "b c".toList ∧ envOf [] "A".toList = []
    ∧ expand (placeholder ("A".toList ++ ':' :: "b c".toList)) (envOf [])
        = placeholder ("A".toList ++ ':' :: "b c".toList)
    ∧ expand (placeholder ("A".toList ++ ':' :: "b c".toList)) (envOf [])
        ≠ "b c".toList := by
  decide

/-- C2 (amended): for every name, every fallback made only of runes in
`[a-zA-Z0-9_:/.]` and every mapping `m`, `expand` applied to `${NAME:fallback}`
returns the fallback when `m NAME` is empty and `m NAME` otherwise. -/
theorem expand_fallback (m : Str → Str) (name d : Str) (hn : isName name = true)
    (hd : ∀ x ∈ d, isNameRest x = true) :
    expand (placeholder (name ++ ':' :: d)) m = if m name = [] then d else m name := by
  have hw : wellFormed (name ++ ':' :: d) = true := by
    have hnw := isName_wellFormed hn
    cases name with
    | nil => simp [wellFormed] at hnw
    | cons a r =>
      simp only [wellFormed, Bool.and_eq_true, List.all_eq_true] at hnw
      simp only [List.cons_append, wellFormed, Bool.and_eq_true, List.all_eq_true]
      refine ⟨hnw.1, fun x hx => ?_⟩
      rcases List.mem_append.mp hx with h | h
      · exact hnw.2 x h
      · rcases List.mem_cons.mp h with rfl | h
        · decide
        · exact hd x h
  unfold expand replaceAllStringFunc
  have := replaceAllFrom_placeholder (expandOne m) (name ++ ':' :: d) [] hw
  rw [List.append_nil] at this
  rw [this, replaceAllFrom_nil, List.append_nil, expandOne_placeholder m _ hw,
    resolve_fallback m name d (isName_no_colon hn)]

/-- The amended C2 on `${FOO:localhost}`, with `FOO` unset and with `FOO=bar`. -/
theorem expand_fallback_witness :
    (isName "FOO".toList = true
      ∧ expand (placeholder ("FOO".toList ++ ':' :: "localhost".toList)) (envOf [])
          = "localhost".toList)
    ∧ expand (placeholder ("FOO".toList ++ ':' :: "localhost".toList))
          (envOf [("FOO".toList, "bar".toList)]) = "bar".toList :=
  ⟨⟨by decide,
    (expand_fallback (envOf []) "FOO".toList "localhost".toList
      (by decide) (by decide)).trans (by decide)⟩,
   (expand_fallback (envOf [("FOO".toList, "bar".toList)]) "FOO".toList "localhost".toList
      (by decide) (by decide)).trans (by decide)⟩

/-- C3: on a text without any well-formed placeholder `expand` is the
identity, for every mapping; `expand` is a total function, so no error is
raised. -/
theorem expand_noPlaceholder (m : Str → Str) (s : Str) (h : NoPlaceholder s) :
    expand s m = s :=
  replaceAllFrom_noMatch (expandOne m) s (noPlaceholder_noMatch h)

/-- C3 on a text without `${`, the unclosed `${NAME`, `${1FOO}`, the empty `${}`
and the bare `$NAME`, with `NAME` and `FOO` set. -/
theorem expand_noPlaceholder_witness :
    (NoPlaceholder "pass: a$b".toList
      ∧ expand "pass: a$b".toList (envOf [("NAME".toList, "v".toList)])
          = "pass: a$b".toList)
    ∧ (NoPlaceholder ('$' :: '{' :: "NAME".toList)
      ∧ expand ('$' :: '{' :: "NAME".toList) (envOf [("NAME".toList, "v".toList)])
          = '$' :: '{' :: "NAME".toList)
    ∧ (NoPlaceholder (placeholder "1FOO".toList)
      ∧ expand (placeholder "1FOO".toList) (envOf [("FOO".toList, "v".toList)])
          = placeholder "1FOO".toList)
    ∧ (NoPlaceholder (placeholder [])
      ∧ expand (placeholder []) (envOf [("".toList, "v".toList)]) = placeholder [])
    ∧ (NoPlaceholder "$NAME".toList
      ∧ expand "$NAME".toList (envOf [("NAME".toList, "v".toList)]) = "$NAME".toList) :=
  ⟨⟨noPlaceholder_of_hasMatch (by decide),
      expand_noPlaceholder _ _ (noPlaceholder_of_hasMatch (by decide))⟩,
   ⟨noPlaceholder_of_hasMatch (by decide),
      expand_noPlaceholder _ _ (noPlaceholder_of_hasMatch (by decide))⟩,
   ⟨noPlaceholder_of_hasMatch (by decide),
      expand_noPlaceholder _ _ (noPlaceholder_of_hasMatch (by decide))⟩,
   ⟨noPlaceholder_of_hasMatch (by decide),
      expand_noPlaceholder _ _ (noPlaceholder_of_hasMatch (by decide))⟩,
   ⟨noPlaceholder_of_hasMatch (by decide),
      expand_noPlaceholder _ _ (noPlaceholder_of_hasMatch (by decide))⟩⟩

/-- C9: a placeholder whose fallback contains a rune outside
`[a-zA-Z0-9_:/.]` is not expanded.  For every name `N`, every fallback `d`
without `$`, `{` and `}` and with at least one rune outside the class, and
every mapping `m` (also one with `m N` non-empty), `expand` returns `${N:d}`
unchanged. -/
theorem expand_fallback_outside_class (m : Str → Str) (N d : Str)
    (hN : isName N = true)
    (hd : ∀ x ∈ d, x ≠ '$' ∧ x ≠ '{' ∧ x ≠ '}')
    (hbad : ∃ x ∈ d, isNameRest x = false) :
    expand (placeholder (N ++ ':' :: d)) m = placeholder (N ++ ':' :: d) := by
  obtain ⟨x, hx, hxbad⟩ := hbad
  obtain ⟨d1, d2, rfl⟩ := List.append_of_mem hx
  have hNall := wellFormed_all (isName_wellFormed hN)
  have hclose : '}' ∉ N ++ ':' :: d1 := by
    intro h
    rcases List.mem_append.mp h with h | h
    · exact isNameRest_ne_close (hNall _ h) rfl
    · rcases List.mem_cons.mp h with h | h
      · exact absurd h (by decide)
      · exact (hd _ (List.mem_append_left _ h)).2.2 rfl
  have hhead := matchHere_stop (N ++ ':' :: d1) x (d2 ++ ['}']) hclose hxbad (hd x hx).2.2
  have hshape : placeholder (N ++ ':' :: (d1 ++ x :: d2))
      = '$' :: '{' :: ((N ++ ':' :: d1) ++ x :: (d2 ++ ['}'])) := by
    simp [placeholder]
  have hlit : '$' ∉ '{' :: ((N ++ ':' :: d1) ++ x :: (d2 ++ ['}'])) := by
    have hdd : ∀ y ∈ d1 ++ x :: d2, y ≠ '$' := fun y hy => (hd y hy).1
    intro h
    rcases List.mem_cons.mp h with h | h
    · exact absurd h (by decide)
    · rcases List.mem_append.mp h with h | h
      · rcases List.mem_append.mp h with h | h
        · exact isNameRest_ne_dollar (hNall _ h) rfl
        · rcases List.mem_cons.mp h with h | h
          · exact absurd h (by decide)
          · exact hdd _ (List.mem_append_left _ h) rfl
      · rcases List.mem_cons.mp h with h | h
        · exact hdd _ (by rw [← h]; simp) rfl
        · rcases List.mem_append.mp h with h | h
          · exact hdd _ (by simp [h]) rfl
          · simp at h
  unfold expand replaceAllStringFunc
  rw [hshape, replaceAllFrom_none _ _ _ hhead]
  have := replaceAllFrom_literal (expandOne m) _ [] hlit
  rw [List.append_nil] at this
  rw [this, replaceAllFrom_nil, List.append_nil]

/-- C9 on `${FOO:local host}` with `FOO=bar`, and on `${FOO:a-b}` with `FOO` unset. -/
theorem expand_fallback_outside_class_witness :
    (isName "FOO".toList = true
      ∧ (∃ x ∈ "local host".toList, isNameRest x = false)
      ∧ expand (placeholder ("FOO".toList ++ ':' :: "local host".toList))
          (envOf [("FOO".toList, "bar".toList)])
        = placeholder ("FOO".toList ++ ':' :: "local host".toList))
    ∧ expand (placeholder ("FOO".toList ++ ':' :: "a-b".toList)) (envOf [])
        = placeholder ("FOO".toList ++ ':' :: "a-b".toList) :=
  ⟨⟨by decide, by decide,
    expand_fallback_outside_class (envOf [("FOO".toList, "bar".toList)]) "FOO".toList
      "local host".toList (by decide) (by decide) (by decide)⟩,
   expand_fallback_outside_class (envOf []) "FOO".toList "a-b".toList
      (by decide) (by decide) (by decide)⟩

/-- C10: `expand` makes one pass and does not resolve nested placeholders.  For
every `X` without `$` and `}`, every name `B` without colon and every mapping
`m`, `expand` applied to `${` X `${` B `}` `}` returns `${` X (m B) `}`: the
inner placeholder is replaced, the enclosing `${` and `}` stay as text. -/
theorem expand_nested (m : Str → Str) (X B : Str)
    (hX : ∀ x ∈ X, x ≠ '$' ∧ x ≠ '}') (hB : isName B = true) :
    expand ('$' :: '{' :: (X ++ placeholder B ++ ['}'])) m
      = '$' :: '{' :: (X ++ m B ++ ['}']) := by
  have hw := isName_wellFormed hB
  have hclose : '}' ∉ X := fun h => (hX _ h).2 rfl
  have hshape : '$' :: '{' :: (X ++ placeholder B ++ ['}'])
      = '$' :: '{' :: (X ++ '$' :: ('{' :: (B ++ ['}', '}']))) := by
    simp [placeholder]
  have hhead := matchHere_stop X '$' ('{' :: (B ++ ['}', '}'])) hclose (by decide) (by decide)
  rw [← hshape] at hhead
  have hlit : '$' ∉ '{' :: X := by
    intro h
    rcases List.mem_cons.mp h with h | h
    · exact absurd h (by decide)
    · exact (hX _ h).1 rfl
  have hlast : '$' ∉ ['}'] := by decide
  unfold expand replaceAllStringFunc
  rw [replaceAllFrom_none _ _ _ hhead]
  have e1 : '{' :: (X ++ placeholder B ++ ['}']) = ('{' :: X) ++ (placeholder B ++ ['}']) := by
    simp
  have e2 := replaceAllFrom_literal (expandOne m) ['}'] [] hlast
  rw [List.append_nil, replaceAllFrom_nil, List.append_nil] at e2
  rw [e1, replaceAllFrom_literal _ _ _ hlit, replaceAllFrom_placeholder _ _ _ hw, e2,
    expandOne_placeholder m B hw, resolve_plain m B (isName_no_colon hB)]
  simp

/-- C10 on `${HOST:${DEFAULT_HOST}}` with `DEFAULT_HOST=db`: the result is
`${HOST:db}`, itself a well-formed placeholder that is not expanded. -/
theorem expand_nested_witness :
    isName "DEFAULT_HOST".toList = true
    ∧ expand ('$' :: '{' :: ("HOST:".toList ++ placeholder "DEFAULT_HOST".toList ++ ['}']))
        (envOf [("DEFAULT_HOST".toList, "db".toList)])
      = placeholder "HOST:db".toList
    ∧ wellFormed "HOST:db".toList = true :=
  ⟨by decide,
   (expand_nested (envOf [("DEFAULT_HOST".toList, "db".toList)]) "HOST:".toList
      "DEFAULT_HOST".toList (by decide) (by decide)).trans (by decide),
   by decide⟩

/-! ## Lemmas on the selection loop -/

theorem char_toNat_lt (c : Char) : c.toNat < 1114112 := by
  rcases c.valid with h | h
  · have : c.toNat < 55296 := h
    omega
  · exact h.2

theorem wrapInt32_rune (c : Char) :
    wrapInt32 ((c.toNat : Int) - 48) = (c.toNat : Int) - 48 := by
  have := char_toNat_lt c
  unfold wrapInt32
  omega

theorem wrapInt32_rmaxOf (serverconfs : List Server) :
    wrapInt32 (rmaxOf serverconfs) = min 10 (serverconfs.length : Int) := by
  unfold wrapInt32 rmaxOf
  split_ifs with h <;> omega

/-- One iteration appends the fragment of the rune and records the index read,
without panic. -/
theorem selectStep_eq (serverconfs : List Server) (st : LoopState) (c : Char) :
    selectStep serverconfs st c
      = .ok { sb := st.sb ++ fragmentFor serverconfs c,
              accessed := st.accessed ++ (validOrdinal serverconfs c).toList } := by
  unfold selectStep fragmentFor validOrdinal
  simp only [wrapInt32_rune, wrapInt32_rmaxOf, ge_iff_le]
  generalize (c.toNat : Int) - 48 = k
  by_cases h : 0 ≤ k ∧ k < min 10 (serverconfs.length : Int)
  · have hlt : k.toNat < serverconfs.length := by omega
    have hget : serverconfs[k.toNat]? = some serverconfs[k.toNat] :=
      List.getElem?_eq_getElem hlt
    have hidx : indexServer serverconfs k = .ok serverconfs[k.toNat] := by
      simp [indexServer, h.1, hget]
    rw [if_pos h, if_pos h, hidx]
    simp [hget]
  · rw [if_neg h, if_neg h]
    simp

theorem selectLoop_eq (serverconfs : List Server) (st : LoopState) (sel : Str) :
    selectLoop serverconfs st sel
      = .ok { sb := st.sb ++ fragments serverconfs sel,
              accessed := st.accessed ++ sel.filterMap (validOrdinal serverconfs) } := by
  induction sel generalizing st with
  | nil => simp [selectLoop, fragments]
  | cons c cs ih =>
    simp only [selectLoop, selectStep_eq, ih]
    cases hv : validOrdinal serverconfs c <;>
      simp [fragments, List.filterMap_cons, hv]

theorem validOrdinal_bound {serverconfs : List Server} {c : Char} {k : Int}
    (h : validOrdinal serverconfs c = some k) :
    0 ≤ k ∧ k < (serverconfs.length : Int) ∧ k < 10 := by
  unfold validOrdinal at h
  simp only at h
  split_ifs at h with h1
  cases h
  omega

theorem generateConfig_eq (defaultConfig : Str) (serverconfs : List Server) :
    generateConfig defaultConfig serverconfs
      = .ok [ .print "未找到配置文件，正在为您生成配置文件中！\n",
              .writeFile "config.yml" (defaultConfig ++ fragments serverconfs readString) 0o644,
              .print "默认配置文件已生成，请修改 config.yml 后重新启动!\n" ] := by
  simp [generateConfig, selection, selectLoop_eq]

theorem fragments_readString (serverconfs : List Server) :
    fragments serverconfs readString
      = if h : 3 < serverconfs.length then (serverconfs.get ⟨3, h⟩).Default else [] := by
  have h3 : (('3' : Char).toNat : Int) - 48 = 3 := by decide
  have hn : (('\n' : Char).toNat : Int) - 48 = -38 := by decide
  have e1 : fragmentFor serverconfs '\n' = [] := by
    simp [fragmentFor, validOrdinal, hn]
  have e2 : fragmentFor serverconfs '3'
      = if h : 3 < serverconfs.length then (serverconfs.get ⟨3, h⟩).Default else [] := by
    by_cases h : 3 < serverconfs.length
    · have hget : serverconfs.get? 3 = some (serverconfs.get ⟨3, h⟩) := List.get?_eq_get h
      have hk : (3 : Int) < min 10 (serverconfs.length : Int) := by omega
      simp [fragmentFor, validOrdinal, h3, hk, hget, h]
    · have hk : ¬ (3 : Int) < min 10 (serverconfs.length : Int) := by omega
      simp only [fragmentFor, validOrdinal, h3, h, dite_false]
      simp [hk]
  simp [fragments, readString, e1, e2]

/-! ## Theorems on `generateConfig` -/

/-- C4: the selection loop, as a function of the template, the registry and
the selection string, ends without panic, and its buffer is the template
followed by, for each rune `c` of the selection in order, the `Default`
fragment of the transport at ordinal `c - '0'` when
`0 ≤ c - '0' < min(10, registry length)` and nothing for any other rune; a
repeated valid digit appends its fragment once per occurrence. -/
theorem selection_buffer (template : Str) (serverconfs : List Server) (sel : Str) :
    Except.map LoopState.sb (selection template serverconfs sel)
      = .ok (template ++ fragments serverconfs sel) := by
  simp [selection, selectLoop_eq, Except.map]

/-- Scenario C of the specification: three transports and the selection `02`
give the template, then fragment 0, then fragment 2; the selection `0a0` gives
fragment 0 twice. -/
theorem selection_buffer_witness :
    Except.map LoopState.sb
        (selection "T\n".toList (sampleWorld "linux" (fun _ => none)).serverconfs "02".toList)
      = .ok ("T\n".toList ++ "- http\n".toList ++ "- ws-reverse\n".toList)
    ∧ Except.map LoopState.sb
        (selection "T\n".toList (sampleWorld "linux" (fun _ => none)).serverconfs "0a0".toList)
      = .ok ("T\n".toList ++ "- http\n".toList ++ "- http\n".toList) :=
  ⟨(selection_buffer "T\n".toList (sampleWorld "linux" (fun _ => none)).serverconfs
      "02".toList).trans (by rfl),
   (selection_buffer "T\n".toList (sampleWorld "linux" (fun _ => none)).serverconfs
      "0a0".toList).trans (by rfl)⟩

/-- C5: with the fixed selection of `generateConfig` (the rune `3` and a
newline), for every registry the buffer written to `config.yml` is the
embedded template followed by exactly the `Default` fragment of the transport
at ordinal 3 when the registry has at least 4 entries, and the template alone
otherwise. -/
theorem generateConfig_default (defaultConfig : Str) (serverconfs : List Server) :
    generateConfig defaultConfig serverconfs
      = .ok [ .print "未找到配置文件，正在为您生成配置文件中！\n",
              .writeFile "config.yml"
                (defaultConfig ++
                  if h : 3 < serverconfs.length then (serverconfs.get ⟨3, h⟩).Default else [])
                0o644,
              .print "默认配置文件已生成，请修改 config.yml 后重新启动!\n" ] := by
  rw [generateConfig_eq, fragments_readString]

/-- C6: for every registry and every selection string of arbitrary runes the
selection loop ends without panic, and every index `r` at which it reads
`serverconfs[r]` satisfies `0 ≤ r < len(serverconfs)`. -/
theorem selection_in_bounds (template : Str) (serverconfs : List Server) (sel : Str) :
    ∃ st, selection template serverconfs sel = .ok st
      ∧ ∀ r ∈ st.accessed, 0 ≤ r ∧ r < (serverconfs.length : Int) := by
  refine ⟨_, selectLoop_eq serverconfs _ sel, ?_⟩
  intro r hr
  simp only [List.nil_append, List.mem_filterMap] at hr
  obtain ⟨c, _, hc⟩ := hr
  have := validOrdinal_bound hc
  exact ⟨this.1, this.2.1⟩

/-! ## Theorems on `Parse` -/

/-- C7, as stated, fails: no configuration file, platform `linux`, and the
launcher returns the error of a companion that exits with status 1; `Parse`
ends the process with exit code 1, not 0. -/
theorem Parse_launch_error_counterexample :
    (sampleWorld "linux" (fun _ => some "exit status 1")).readFile "config.yml"
        = .error "open config.yml: no such file or directory"
    ∧ (runLinuxExecutable (sampleWorld "linux" (fun _ => some "exit status 1"))
        "./go-cqhttp").2 = some "exit status 1"
    ∧ (Parse (sampleWorld "linux" (fun _ => some "exit status 1")) "config.yml").2
        = .exited 1
    ∧ (Parse (sampleWorld "linux" (fun _ => some "exit status 1")) "config.yml").2
        ≠ .exited 0 := by
  refine ⟨rfl, rfl, rfl, ?_⟩
  decide

/-- C7 (amended): when the configuration file cannot be read and, on
`windows` or `linux`, the launcher returns an error, `Parse` writes
`config.yml`, reports the error in a fatal log entry as its last event, and
the process ends with exit code 1. -/
theorem Parse_launch_error {Cfg : Type} (w : World Cfg) (path : String)
    (hfile : ∃ e, w.readFile path = .error e)
    (hlaunch :
      (w.goos = "windows" ∧ ∃ e, (runWindowsExecutable w "go-cqhttp.exe").2 = some e)
      ∨ (w.goos = "linux" ∧ ∃ e, (runLinuxExecutable w "./go-cqhttp").2 = some e)) :
    (Parse w path).2 = .exited 1
    ∧ (∃ msg, (Parse w path).1.getLast? = some (.fatal msg))
    ∧ ∃ buf, Event.writeFile "config.yml" buf 0o644 ∈ (Parse w path).1 := by
  obtain ⟨e, he⟩ := hfile
  rcases hlaunch with ⟨hg, err, herr⟩ | ⟨hg, err, herr⟩
  · rcases hrun : runWindowsExecutable w "go-cqhttp.exe" with ⟨evs, r⟩
    rw [hrun] at herr
    simp only at herr
    subst herr
    simp only [Parse, he, generateConfig_eq, hg, hrun, if_true, true_and]
    refine ⟨⟨_, List.getLast?_concat _⟩, ?_⟩
    simp
  · have hnw : w.goos ≠ "windows" := by rw [hg]; decide
    rcases hrun : runLinuxExecutable w "./go-cqhttp" with ⟨evs, r⟩
    rw [hrun] at herr
    simp only at herr
    subst herr
    have hne : ¬ ("linux" = "windows") := by decide
    simp only [Parse, he, generateConfig_eq, hg, hrun, hne, if_true, if_false, true_and]
    refine ⟨⟨_, List.getLast?_concat _⟩, ?_⟩
    simp

/-- The amended C7 on `linux` with a companion that exits with status 1, and
on `windows` with a companion that cannot be started. -/
theorem Parse_launch_error_witness :
    ((Parse (sampleWorld "linux" (fun _ => some "exit status 1")) "config.yml").2
        = .exited 1
      ∧ (∃ msg, (Parse (sampleWorld "linux" (fun _ => some "exit status 1"))
          "config.yml").1.getLast? = some (.fatal msg))
      ∧ ∃ buf, Event.writeFile "config.yml" buf 0o644
          ∈ (Parse (sampleWorld "linux" (fun _ => some "exit status 1")) "config.yml").1)
    ∧ (Parse (sampleWorld "windows" (fun _ => some "exec: not started")) "config.yml").2
        = .exited 1 :=
  ⟨Parse_launch_error (sampleWorld "linux" (fun _ => some "exit status 1")) "config.yml"
      ⟨_, rfl⟩ (Or.inr ⟨rfl, _, rfl⟩),
   (Parse_launch_error (sampleWorld "windows" (fun _ => some "exec: not started"))
      "config.yml" ⟨_, rfl⟩ (Or.inl ⟨rfl, _, rfl⟩)).1⟩

/-- C8: when the configuration file cannot be read and the platform is
neither `windows` nor `linux`, `Parse` runs the generator, which writes
`config.yml`, logs that the platform is unsupported, starts no process, and
ends the process with exit code 0; it does not return settings. -/
theorem Parse_unsupported_platform {Cfg : Type} (w : World Cfg) (path : String)
    (hfile : ∃ e, w.readFile path = .error e)
    (hw : w.goos ≠ "windows") (hl : w.goos ≠ "linux") :
    Parse w path
        = ([ .print "未找到配置文件，正在为您生成配置文件中！\n",
             .writeFile "config.yml"
               (w.defaultConfig ++ fragments w.serverconfs readString) 0o644,
             .print "默认配置文件已生成，请修改 config.yml 后重新启动!\n",
             .log ("不支持的操作系统: " ++ w.goos ++ "\n") ], .exited 0)
    ∧ (∀ e ∈ (Parse w path).1, e.isRun = false)
    ∧ ∀ cfg, (Parse w path).2 ≠ .returned cfg := by
  obtain ⟨e, he⟩ := hfile
  have h : Parse w path
        = ([ .print "未找到配置文件，正在为您生成配置文件中！\n",
             .writeFile "config.yml"
               (w.defaultConfig ++ fragments w.serverconfs readString) 0o644,
             .print "默认配置文件已生成，请修改 config.yml 后重新启动!\n",
             .log ("不支持的操作系统: " ++ w.goos ++ "\n") ], .exited 0) := by
    simp [Parse, he, generateConfig_eq, hw, hl]
  refine ⟨h, ?_, ?_⟩
  · rw [h]
    intro e he
    simp only [List.mem_cons, List.mem_singleton, List.not_mem_nil, or_false] at he
    rcases he with rfl | rfl | rfl | rfl <;> rfl
  · rw [h]
    intro cfg hc
    cases hc

/-- Scenario D of the specification, on the platform `darwin` with three
registered transports: the written file is the template alone. -/
theorem Parse_unsupported_platform_witness :
    (sampleWorld "darwin" (fun _ => none)).goos ≠ "windows"
    ∧ (sampleWorld "darwin" (fun _ => none)).goos ≠ "linux"
    ∧ Parse (sampleWorld "darwin" (fun _ => none)) "config.yml"
        = ([ .print "未找到配置文件，正在为您生成配置文件中！\n",
             .writeFile "config.yml" "# base\n".toList 0o644,
             .print "默认配置文件已生成，请修改 config.yml 后重新启动!\n",
             .log "不支持的操作系统: darwin\n" ], .exited 0) :=
  ⟨by decide, by decide,
   (Parse_unsupported_platform (sampleWorld "darwin" (fun _ => none)) "config.yml"
      ⟨_, rfl⟩ (by decide) (by decide)).1.trans (by rfl)⟩

end Config
